import Mathlib

/-!
Verification of the EU-Car-Predict valuation pipeline.

The development shallowly embeds the decision logic of the two source
programs (`predict.py`, the console program, and `app.py`, the web app):
the fallback power estimator, the kW/HP conversions, the encoding
resolver, the model-name search, the feature-vector builder and the
prediction combiner.  Python `int()` is modelled as truncation toward
zero and strings as Lean strings (the relevant data is ASCII, where
Python's `lower`, `strip` and `title` agree with the character-level
models below).  The kW/HP conversions are modelled bit-accurately in
binary64: `c64` is the exact rational value of the double written `1.36`
(which is not 34/25), `fl` is IEEE round-to-nearest-even (exact for
arguments that are 0 or of magnitude at least 1/2 and below the overflow
threshold — all arguments the conversions produce), and each conversion
performs the int-to-double conversion, one correctly rounded
multiplication or division, and a truncation, exactly as CPython
evaluates `int(kw * 1.36)` and `int(hp / 1.36)`.  The power estimator's
engine comparisons use exact rationals: at each boundary (1.5, 2.0, 1.2,
1.6) the parsed double compares against the identical literal's double,
so the rational comparison agrees with the program.
-/

/-- Indicator used for the one-hot flags: `1 if cond else 0`. -/
def ind (b : Bool) : ℚ := if b then 1 else 0

/-- Truncation toward zero, the semantics of Python `int()` on a number. -/
def pytrunc (q : ℚ) : ℤ := if 0 ≤ q then ⌊q⌋ else ⌈q⌉

/-- Rounding half to even, the semantics of Python `round()` on a number. -/
def pyround (q : ℚ) : ℤ :=
  if q - ⌊q⌋ < 1/2 then ⌊q⌋
  else if (1:ℚ)/2 < q - ⌊q⌋ then ⌊q⌋ + 1
  else if ⌊q⌋ % 2 = 0 then ⌊q⌋ else ⌊q⌋ + 1

/-- ASCII lower-casing of a string, the semantics of Python `str.lower()`
on ASCII data (`Char.toLower` lowers exactly the range A-Z). -/
def strLower (s : String) : String := ⟨s.data.map Char.toLower⟩

/-- Boolean test that the first list is a prefix of the second. -/
def isPrefixList : List Char → List Char → Bool
  | [], _ => true
  | _ :: _, [] => false
  | a :: as, b :: bs => a = b && isPrefixList as bs

/-- Boolean test that the first list occurs contiguously inside the second. -/
def isSubstrList (needle : List Char) : List Char → Bool
  | [] => needle.isEmpty
  | h :: t => isPrefixList needle (h :: t) || isSubstrList needle t

/-- Substring containment on strings, the semantics of Python `a in b`. -/
def pyContains (needle hay : String) : Bool := isSubstrList needle.data hay.data

theorem isPrefixList_iff_isPrefix (l₁ l₂ : List Char) :
    isPrefixList l₁ l₂ = true ↔ l₁ <+: l₂ := by
  induction l₁ generalizing l₂ with
  | nil => simp [isPrefixList]
  | cons a as ih =>
    cases l₂ with
    | nil => simp [isPrefixList]
    | cons b bs => simp [isPrefixList, ih]

theorem isSubstrList_iff_isInfix (l₁ l₂ : List Char) :
    isSubstrList l₁ l₂ = true ↔ l₁ <:+: l₂ := by
  induction l₂ with
  | nil => cases l₁ <;> simp [isSubstrList, List.isEmpty]
  | cons h t ih =>
    simp [isSubstrList, List.infix_cons_iff, isPrefixList_iff_isPrefix, ih]

namespace Predict

/-- Fallback power estimator of `predict.py` (`estimate_kw_from_engine`):
estimates kW from engine size when power is unknown. -/
def estimate_kw_from_engine (engine_size : ℚ) (fuel_type : String) : ℕ :=
  if pyContains "diesel" (strLower fuel_type) then
    if engine_size ≤ 1.5 then 75
    else if engine_size ≤ 2.0 then 110
    else 140
  else
    if engine_size ≤ 1.2 then 60
    else if engine_size ≤ 1.6 then 92
    else if engine_size ≤ 2.0 then 132
    else 184

end Predict

namespace App

/-- Fallback power estimator of `app.py` (`estimate_kw_from_engine`):
fallback logic if power is not provided. -/
def estimate_kw_from_engine (engine_size : ℚ) (fuel_type : String) : ℕ :=
  if pyContains "diesel" (strLower fuel_type) then
    if engine_size ≤ 1.5 then 75
    else if engine_size ≤ 2.0 then 110
    else 140
  else
    if engine_size ≤ 1.2 then 60
    else if engine_size ≤ 1.6 then 92
    else if engine_size ≤ 2.0 then 132
    else 184

end App

/-- C2: for every engine displacement and fuel string the power estimator is
a (deterministic, pure) function into the seven table values
{75, 110, 140, 60, 92, 132, 184}; diesel is selected by case-insensitive
substring match of "diesel" in the fuel string; and each boundary
displacement (1.5 and 2.0 for diesel; 1.2, 1.6 and 2.0 otherwise) falls in
the lower (≤) bucket, per the decision table. -/
theorem claim_C2_power_estimator_table (e : ℚ) (f : String) :
    Predict.estimate_kw_from_engine e f ∈ [75, 110, 140, 60, 92, 132, 184] ∧
    (pyContains "diesel" (strLower f) = true ↔
      ("diesel".data <:+: f.data.map Char.toLower)) ∧
    (pyContains "diesel" (strLower f) = true →
      (e ≤ 1.5 → Predict.estimate_kw_from_engine e f = 75) ∧
      (1.5 < e → e ≤ 2.0 → Predict.estimate_kw_from_engine e f = 110) ∧
      (2.0 < e → Predict.estimate_kw_from_engine e f = 140)) ∧
    (pyContains "diesel" (strLower f) = false →
      (e ≤ 1.2 → Predict.estimate_kw_from_engine e f = 60) ∧
      (1.2 < e → e ≤ 1.6 → Predict.estimate_kw_from_engine e f = 92) ∧
      (1.6 < e → e ≤ 2.0 → Predict.estimate_kw_from_engine e f = 132) ∧
      (2.0 < e → Predict.estimate_kw_from_engine e f = 184)) := by
  refine ⟨?_, ?_, ?_, ?_⟩
  · unfold Predict.estimate_kw_from_engine
    split_ifs <;> simp
  · rw [pyContains, isSubstrList_iff_isInfix]
    rfl
  · intro hd
    refine ⟨fun h1 => ?_, fun h1 h2 => ?_, fun h1 => ?_⟩ <;>
      simp only [Predict.estimate_kw_from_engine, hd, if_true] <;>
      split_ifs <;> first | rfl | linarith
  · intro hd
    refine ⟨fun h1 => ?_, fun h1 h2 => ?_, fun h1 h2 => ?_, fun h1 => ?_⟩ <;>
      simp only [Predict.estimate_kw_from_engine, hd, Bool.false_eq_true,
        if_false] <;>
      split_ifs <;> first | rfl | linarith

/-- Witness for C2 at a concrete input: a 1.6 L "Diesel" engine (substring
match is case-insensitive, 1.6 is in the (1.5, 2.0] diesel bucket) is
estimated at 110 kW. -/
theorem claim_C2_power_estimator_table_witness :
    Predict.estimate_kw_from_engine 1.6 "Diesel" = 110 :=
  ((claim_C2_power_estimator_table 1.6 "Diesel").2.2.1 (by decide)).2.1
    (by norm_num) (by norm_num)

/-- Derived horsepower under exact rational arithmetic,
`hp = int(kw * 1.36)`; at the scenario inputs below it coincides with the
binary64 computation (`hp_from_kw_f`). -/
def hp_from_kw (kw : ℤ) : ℤ := pytrunc ((kw : ℚ) * 1.36)

theorem pytrunc_of_nonneg {q : ℚ} (h : 0 ≤ q) : pytrunc q = ⌊q⌋ := if_pos h

theorem pytrunc_neg (q : ℚ) : pytrunc (-q) = -pytrunc q := by
  rcases lt_trichotomy q 0 with h | h | h
  · rw [pytrunc, pytrunc, if_neg (not_le.mpr h), if_pos (by linarith), Int.floor_neg]
  · subst h; simp [pytrunc]
  · rw [pytrunc, pytrunc, if_neg (by simpa using h), if_pos h.le, Int.ceil_neg]

/-- Exact value of the binary64 floating-point number written `1.36` in the
source: the nearest double to 1.36, which is 34/25 + 11/(25 * 2^52). -/
def c64 : ℚ := 6124895493223875 / 4503599627370496

/-- Binade exponent of a rational: the e with 2^e ≤ q < 2^(e+1), computed
for q ≥ 1 via `Nat.log`; the -1 branch is the binade of q ∈ [1/2, 1), the
only other magnitude the conversions below produce. -/
def e2 (q : ℚ) : ℤ := if 1 ≤ q then (Nat.log 2 ⌊q⌋.toNat : ℤ) else -1

/-- Binary64 rounding of a nonnegative rational to the nearest
representable value, ties to even: round-half-even on the grid of spacing
2^(e2 q - 52). Exact IEEE semantics for q = 0 and 1/2 ≤ q below the
overflow threshold — the only inputs the conversions produce. -/
def flPos (q : ℚ) : ℚ :=
  (pyround (q * (2:ℚ) ^ ((52:ℤ) - e2 q)) : ℚ) / (2:ℚ) ^ ((52:ℤ) - e2 q)

/-- Binary64 rounding extended to negative rationals by sign symmetry, as
in IEEE round-to-nearest-even. -/
def fl (q : ℚ) : ℚ := if q < 0 then -flPos (-q) else flPos q

/-- Derived horsepower in binary64, `hp = int(kw * 1.36)` as both programs
compute it: the int is converted to a double (rounded), multiplied by the
double 1.36 (rounded), and truncated toward zero. -/
def hp_from_kw_f (kw : ℤ) : ℤ := pytrunc (fl (fl (kw : ℚ) * c64))

/-- Derived kW in binary64 when HP is the authoritative input,
`kw = int(hp / 1.36)` as both programs compute it: int-to-double
conversion, correctly rounded division by the double 1.36, truncation. -/
def kw_from_hp_f (hp : ℤ) : ℤ := pytrunc (fl (fl (hp : ℚ) / c64))

theorem pyround_intCast (z : ℤ) : pyround ((z : ℚ)) = z := by
  rw [pyround, Int.floor_intCast, if_pos (by simp)]

theorem pyround_le_half (q : ℚ) : |(pyround q : ℚ) - q| ≤ 1/2 := by
  have h1 : ((⌊q⌋ : ℤ) : ℚ) ≤ q := Int.floor_le q
  have h2 : q < ⌊q⌋ + 1 := Int.lt_floor_add_one q
  rw [pyround]
  split_ifs with ha hb hc <;> simp only [not_lt] at * <;> push_cast <;>
    rw [abs_le] <;> exact ⟨by linarith, by linarith⟩

theorem pyround_eq_of_close {q : ℚ} {z : ℤ} (h : |q - (z : ℚ)| < 1/2) :
    pyround q = z := by
  rw [abs_lt] at h
  rcases le_or_lt (z : ℚ) q with hz | hz
  · have hf : ⌊q⌋ = z := Int.floor_eq_iff.mpr ⟨hz, by linarith⟩
    rw [pyround, hf, if_pos (by linarith)]
  · have hf : ⌊q⌋ = z - 1 :=
      Int.floor_eq_iff.mpr ⟨by push_cast; linarith, by push_cast; linarith⟩
    rw [pyround, hf, if_neg (by push_cast; linarith),
      if_pos (by push_cast; linarith)]
    omega

theorem pyround_nearest (q : ℚ) (z : ℤ) :
    |(pyround q : ℚ) - q| ≤ |(z : ℚ) - q| := by
  rcases lt_or_le |q - (z : ℚ)| (1/2) with h | h
  · rw [pyround_eq_of_close h, abs_sub_comm]
  · calc |(pyround q : ℚ) - q| ≤ 1/2 := pyround_le_half q
      _ ≤ |q - (z : ℚ)| := h
      _ = |(z : ℚ) - q| := abs_sub_comm q z

theorem e2_pow_le {q : ℚ} (h : 1/2 ≤ q) : (2:ℚ) ^ e2 q ≤ 2 * q := by
  rw [e2]
  split_ifs with h1
  · have hfl : (1:ℤ) ≤ ⌊q⌋ := Int.le_floor.mpr (by exact_mod_cast h1)
    have hne : ⌊q⌋.toNat ≠ 0 := by omega
    have hp := Nat.pow_log_le_self 2 hne
    rw [zpow_natCast]
    have h4 : ((⌊q⌋.toNat : ℕ) : ℤ) = ⌊q⌋ := Int.toNat_of_nonneg (by omega)
    have htn : ((⌊q⌋.toNat : ℕ) : ℚ) = ((⌊q⌋ : ℤ) : ℚ) := by exact_mod_cast h4
    calc (2:ℚ) ^ (Nat.log 2 ⌊q⌋.toNat) ≤ ((⌊q⌋.toNat : ℕ) : ℚ) := by
          exact_mod_cast hp
      _ = ((⌊q⌋ : ℤ) : ℚ) := htn
      _ ≤ q := Int.floor_le q
      _ ≤ 2 * q := by linarith
  · rw [show ((-1:ℤ)) = -1 from rfl, zpow_neg_one]
    norm_num
    linarith

theorem e2_lt_of_lt_pow {q : ℚ} {E : ℕ} (h : q < (2:ℚ) ^ E) : e2 q < E := by
  rw [e2]
  split_ifs with h1
  · have hfl : (1:ℤ) ≤ ⌊q⌋ := Int.le_floor.mpr (by exact_mod_cast h1)
    have h2 : ⌊q⌋ < (2:ℤ) ^ E := by
      have hq : ((⌊q⌋ : ℤ) : ℚ) ≤ q := Int.floor_le q
      exact_mod_cast lt_of_le_of_lt hq h
    have h3 : ⌊q⌋.toNat < 2 ^ E := by
      have h4 : ((⌊q⌋.toNat : ℕ) : ℤ) = ⌊q⌋ := Int.toNat_of_nonneg (by omega)
      exact_mod_cast h4 ▸ h2
    have h5 := Nat.log_lt_of_lt_pow (by omega) h3
    exact_mod_cast h5
  · calc (-1 : ℤ) < 0 := by norm_num
      _ ≤ (E : ℤ) := by positivity

theorem e2_eq {q : ℚ} {E : ℕ} (h1 : (2:ℚ) ^ E ≤ q) (h2 : q < (2:ℚ) ^ (E + 1)) :
    e2 q = E := by
  have hq1 : (1:ℚ) ≤ q := le_trans (one_le_pow₀ (by norm_num)) h1
  rw [e2, if_pos hq1]
  have hl : (2:ℤ) ^ E ≤ ⌊q⌋ := Int.le_floor.mpr (by exact_mod_cast h1)
  have hu : ⌊q⌋ < (2:ℤ) ^ (E + 1) := by
    have hq : ((⌊q⌋ : ℤ) : ℚ) ≤ q := Int.floor_le q
    exact_mod_cast lt_of_le_of_lt hq h2
  have h0 : (0:ℤ) ≤ ⌊q⌋ := le_trans (by positivity) hl
  have h4 : ((⌊q⌋.toNat : ℕ) : ℤ) = ⌊q⌋ := Int.toNat_of_nonneg h0
  have hln : 2 ^ E ≤ ⌊q⌋.toNat := by exact_mod_cast h4 ▸ hl
  have hun : ⌊q⌋.toNat < 2 ^ (E + 1) := by exact_mod_cast h4 ▸ hu
  exact_mod_cast Nat.log_eq_of_pow_le_of_lt_pow hln hun

theorem flPos_sub_le {q : ℚ} (h : 1/2 ≤ q) : |flPos q - q| ≤ q / 2 ^ 52 := by
  have hs : (0:ℚ) < (2:ℚ) ^ ((52:ℤ) - e2 q) := zpow_pos (by norm_num) _
  have hfl : flPos q - q =
      ((pyround (q * (2:ℚ) ^ ((52:ℤ) - e2 q)) : ℚ) -
        q * (2:ℚ) ^ ((52:ℤ) - e2 q)) / (2:ℚ) ^ ((52:ℤ) - e2 q) := by
    rw [flPos]
    field_simp
    ring
  rw [hfl, abs_div, abs_of_pos hs, div_le_div_iff₀ hs (by positivity)]
  have h1 := pyround_le_half (q * (2:ℚ) ^ ((52:ℤ) - e2 q))
  have h2 : (2:ℚ) ^ e2 q ≤ 2 * q := e2_pow_le h
  have key : ((1:ℚ)/2) * 2 ^ (52:ℕ) ≤ q * (2:ℚ) ^ ((52:ℤ) - e2 q) := by
    have e1 : ((1:ℚ)/2) * 2 ^ (52:ℕ) = (2:ℚ) ^ (51:ℤ) := by norm_num
    have e2m : (2:ℚ) ^ (51:ℤ) =
        (2:ℚ) ^ (e2 q - 1) * (2:ℚ) ^ ((52:ℤ) - e2 q) := by
      rw [← zpow_add₀ (by norm_num : (2:ℚ) ≠ 0)]
      ring_nf
    have e3 : (2:ℚ) ^ (e2 q - 1) ≤ q := by
      have e4 : (2:ℚ) ^ (e2 q - 1) = (2:ℚ) ^ e2 q / 2 ^ (1:ℤ) := by
        rw [← zpow_sub₀ (by norm_num : (2:ℚ) ≠ 0)]
      rw [e4]
      rw [show ((2:ℚ) ^ (1:ℤ)) = 2 from by norm_num]
      linarith
    calc ((1:ℚ)/2) * 2 ^ (52:ℕ)
        = (2:ℚ) ^ (e2 q - 1) * (2:ℚ) ^ ((52:ℤ) - e2 q) := by rw [e1, e2m]
      _ ≤ q * (2:ℚ) ^ ((52:ℤ) - e2 q) :=
          mul_le_mul_of_nonneg_right e3 hs.le
  have h6 := mul_le_mul_of_nonneg_right h1
    (by positivity : (0:ℚ) ≤ 2 ^ (52:ℕ))
  linarith

theorem flPos_nearest_int {q : ℚ} (he : e2 q ≤ 52) (n : ℤ) :
    |flPos q - q| ≤ |(n : ℚ) - q| := by
  set k : ℕ := ((52:ℤ) - e2 q).toNat with hkdef
  have hkk : ((52:ℤ) - e2 q) = (k : ℤ) := by
    rw [hkdef]
    exact (Int.toNat_of_nonneg (by omega)).symm
  have hs : (0:ℚ) < (2:ℚ) ^ ((52:ℤ) - e2 q) := zpow_pos (by norm_num) _
  have hz : ((n * 2 ^ k : ℤ) : ℚ) = (n : ℚ) * (2:ℚ) ^ ((52:ℤ) - e2 q) := by
    rw [hkk, zpow_natCast]
    push_cast
    ring
  have hn := pyround_nearest (q * (2:ℚ) ^ ((52:ℤ) - e2 q)) (n * 2 ^ k)
  rw [hz] at hn
  have habs : |(n : ℚ) * (2:ℚ) ^ ((52:ℤ) - e2 q) -
      q * (2:ℚ) ^ ((52:ℤ) - e2 q)| =
      |(n : ℚ) - q| * (2:ℚ) ^ ((52:ℤ) - e2 q) := by
    rw [← sub_mul, abs_mul, abs_of_pos hs]
  rw [habs] at hn
  have hfl : flPos q - q =
      ((pyround (q * (2:ℚ) ^ ((52:ℤ) - e2 q)) : ℚ) -
        q * (2:ℚ) ^ ((52:ℤ) - e2 q)) / (2:ℚ) ^ ((52:ℤ) - e2 q) := by
    rw [flPos]
    field_simp
    ring
  rw [hfl, abs_div, abs_of_pos hs, div_le_iff₀ hs]
  exact hn

theorem flPos_zero : flPos 0 = 0 := by
  rw [flPos, show (0:ℚ) * (2:ℚ) ^ ((52:ℤ) - e2 0) = ((0:ℤ) : ℚ) from by
    push_cast; ring, pyround_intCast]
  simp

theorem fl_of_nonneg {q : ℚ} (h : 0 ≤ q) : fl q = flPos q :=
  if_neg (not_lt.mpr h)

theorem fl_neg (q : ℚ) : fl (-q) = -fl q := by
  rcases lt_trichotomy q 0 with h | h | h
  · rw [fl, if_neg (by simp only [not_lt]; linarith), fl, if_pos h, neg_neg]
  · subst h
    rw [neg_zero, fl, if_neg (by norm_num), flPos_zero, neg_zero]
  · rw [fl, if_pos (by linarith), neg_neg, fl, if_neg (by
      simp only [not_lt]; linarith)]

theorem fl_intCast {n : ℤ} (h0 : 0 ≤ n) (h : (n : ℚ) < 2 ^ (53:ℕ)) :
    fl ((n : ℚ)) = (n : ℚ) := by
  rw [fl_of_nonneg (by positivity)]
  rcases eq_or_lt_of_le h0 with h0 | h0
  · rw [← h0]
    push_cast
    exact flPos_zero
  · have he : e2 ((n : ℚ)) < 53 := e2_lt_of_lt_pow h
    have he52 : e2 ((n : ℚ)) ≤ 52 := by omega
    set k : ℕ := ((52:ℤ) - e2 ((n:ℚ))).toNat with hkdef
    have hkk : ((52:ℤ) - e2 ((n:ℚ))) = (k : ℤ) := by
      rw [hkdef]
      exact (Int.toNat_of_nonneg (by omega)).symm
    rw [flPos, show (n : ℚ) * (2:ℚ) ^ ((52:ℤ) - e2 ((n:ℚ))) =
        ((n * 2 ^ k : ℤ) : ℚ) from by
      rw [hkk, zpow_natCast]; push_cast; ring, pyround_intCast]
    rw [hkk, zpow_natCast]
    push_cast
    rw [mul_div_assoc, div_self (by positivity), mul_one]

theorem hp_from_kw_f_neg (kw : ℤ) : hp_from_kw_f (-kw) = -hp_from_kw_f kw := by
  rw [hp_from_kw_f, hp_from_kw_f,
    show ((-kw : ℤ) : ℚ) = -((kw : ℤ) : ℚ) from by push_cast; ring,
    fl_neg, neg_mul, fl_neg, pytrunc_neg]

theorem kw_from_hp_f_neg (hp : ℤ) : kw_from_hp_f (-hp) = -kw_from_hp_f hp := by
  rw [kw_from_hp_f, kw_from_hp_f,
    show ((-hp : ℤ) : ℚ) = -((hp : ℤ) : ℚ) from by push_cast; ring,
    fl_neg, neg_div, fl_neg, pytrunc_neg]

theorem hp_from_kw_f_eq {kw : ℤ} (h0 : 0 ≤ kw) (h1 : kw ≤ 100000) :
    hp_from_kw_f kw = (34 * kw) / 25 := by
  rcases eq_or_lt_of_le h0 with h0e | h0p
  · rw [← h0e, hp_from_kw_f,
      show ((0:ℤ) : ℚ) = (0:ℚ) from by norm_num,
      fl_of_nonneg le_rfl, flPos_zero,
      show (0:ℚ) * c64 = 0 from by ring,
      fl_of_nonneg le_rfl, flPos_zero, pytrunc, if_pos le_rfl]
    norm_num
  · have hkw1 : (1:ℚ) ≤ (kw:ℚ) := by exact_mod_cast h0p
    have hkwu : (kw:ℚ) ≤ 100000 := by exact_mod_cast h1
    have hflkw : fl ((kw:ℚ)) = (kw:ℚ) :=
      fl_intCast h0 (lt_of_le_of_lt hkwu (by norm_num))
    set x : ℚ := (kw:ℚ) * c64 with hxdef
    have hc1 : (34:ℚ)/25 < c64 := by norm_num [c64]
    have hc2 : c64 < 34/25 + 1/2^52 := by norm_num [c64]
    have hx1 : (1:ℚ) ≤ x := by
      rw [hxdef]
      nlinarith
    have hxu : x < 140000 := by
      rw [hxdef]
      nlinarith
    have hx12 : (1:ℚ)/2 ≤ x := by linarith
    have herr := flPos_sub_le hx12
    rw [abs_le] at herr
    have hlt18 : x < (2:ℚ) ^ (18:ℕ) := by
      norm_num
      linarith
    have he := e2_lt_of_lt_pow hlt18
    have he52 : e2 x ≤ 52 := by omega
    have hdm := Int.ediv_add_emod (34 * kw) 25
    have hr0 : 0 ≤ (34 * kw) % 25 := Int.emod_nonneg _ (by norm_num)
    have hr24 : (34 * kw) % 25 < 25 := Int.emod_lt_of_pos _ (by norm_num)
    set m : ℤ := (34 * kw) / 25 with hmdef
    set r : ℤ := (34 * kw) % 25 with hrdef
    have hqm : ((m:ℚ)) + (r:ℚ)/25 = (34 * (kw:ℚ))/25 := by
      have hcast : ((25 * m + r : ℤ) : ℚ) = ((34 * kw : ℤ) : ℚ) := by
        exact_mod_cast hdm
      push_cast at hcast
      linarith
    have hx_lo : (34 * (kw:ℚ))/25 < x := by
      rw [hxdef]
      nlinarith
    have hx_hi : x < (34 * (kw:ℚ))/25 + 100000/2^52 := by
      rw [hxdef]
      nlinarith
    have hm0 : (0:ℚ) ≤ (m:ℚ) := by
      have : (0:ℤ) ≤ m := Int.ediv_nonneg (by positivity) (by norm_num)
      exact_mod_cast this
    have hfl0 : (0:ℚ) ≤ flPos x := by linarith
    have hfloor : ⌊flPos x⌋ = m := by
      rcases eq_or_lt_of_le hr0 with hre | hrp
      · have hm34 : ((m:ℚ)) = 34 * (kw:ℚ)/25 := by
          rw [← hqm, ← hre]
          norm_num
        have hxm : x - ((m:ℚ)) = (kw:ℚ) * (c64 - 34/25) := by
          rw [hxdef, hm34]
          ring
        have hδpos : (0:ℚ) < x - m := by
          rw [hxm]
          apply mul_pos (by linarith) (by linarith)
        have hδsmall : x - ((m:ℚ)) < 1/2 := by
          rw [hxm]
          nlinarith
        have hnear := flPos_nearest_int he52 m
        have habs : |((m:ℚ)) - x| = x - m := by
          rw [abs_sub_comm]
          exact abs_of_pos hδpos
        rw [habs, abs_le] at hnear
        apply Int.floor_eq_iff.mpr
        exact ⟨by linarith [hnear.1], by linarith [hnear.2]⟩
      · have hr1 : (1:ℚ) ≤ (r:ℚ) := by exact_mod_cast hrp
        have hr24q : (r:ℚ) ≤ 24 := by exact_mod_cast (by omega : r ≤ 24)
        have hq1 : ((m:ℚ)) + 1/25 ≤ (34 * (kw:ℚ))/25 := by
          rw [← hqm]
          linarith
        have hq2 : (34 * (kw:ℚ))/25 ≤ ((m:ℚ)) + 24/25 := by
          rw [← hqm]
          linarith
        apply Int.floor_eq_iff.mpr
        exact ⟨by linarith, by linarith⟩
    rw [hp_from_kw_f, hflkw, ← hxdef, fl_of_nonneg (by linarith),
      pytrunc_of_nonneg hfl0, hfloor]

theorem kw_from_hp_f_cases {hp : ℤ} (h0 : 0 ≤ hp) (h1 : hp ≤ 200000) :
    ((25 * hp) % 34 ≠ 0 → kw_from_hp_f hp = (25 * hp) / 34) ∧
    ((25 * hp) % 34 = 0 →
      (25 * hp) / 34 - 1 ≤ kw_from_hp_f hp ∧
        kw_from_hp_f hp ≤ (25 * hp) / 34) := by
  rcases eq_or_lt_of_le h0 with h0e | h0p
  · constructor
    · intro hr
      exfalso
      exact hr (by rw [← h0e]; decide)
    · intro hre
      have hz : kw_from_hp_f 0 = 0 := by
        rw [kw_from_hp_f, show ((0:ℤ) : ℚ) = (0:ℚ) from by norm_num,
          fl_of_nonneg le_rfl, flPos_zero, zero_div,
          fl_of_nonneg le_rfl, flPos_zero, pytrunc, if_pos le_rfl]
        norm_num
      rw [← h0e, hz]
      norm_num
  · have hp1 : (1:ℚ) ≤ (hp:ℚ) := by exact_mod_cast h0p
    have hpu : (hp:ℚ) ≤ 200000 := by exact_mod_cast h1
    have hc0 : (1:ℚ) < c64 := by norm_num [c64]
    have hc64pos : (0:ℚ) < c64 := by linarith
    have hc2 : c64 < 2 := by norm_num [c64]
    have h25 : (25:ℚ) * c64 - 34 = 11/2^52 := by norm_num [c64]
    have hflhp : fl ((hp:ℚ)) = (hp:ℚ) :=
      fl_intCast h0 (lt_of_le_of_lt hpu (by norm_num))
    set y : ℚ := (hp:ℚ) / c64 with hydef
    have hy2 : (1:ℚ)/2 ≤ y := by
      rw [hydef, le_div_iff₀ hc64pos]
      nlinarith
    have hyu : y < 150000 := by
      rw [hydef, div_lt_iff₀ hc64pos]
      nlinarith
    have hlt18 : y < (2:ℚ) ^ (18:ℕ) := by
      norm_num
      linarith
    have he := e2_lt_of_lt_pow hlt18
    have he52 : e2 y ≤ 52 := by omega
    have herr := flPos_sub_le hy2
    rw [abs_le] at herr
    have hdm := Int.ediv_add_emod (25 * hp) 34
    have hr0 : 0 ≤ (25 * hp) % 34 := Int.emod_nonneg _ (by norm_num)
    have hr33 : (25 * hp) % 34 < 34 := Int.emod_lt_of_pos _ (by norm_num)
    set n : ℤ := (25 * hp) / 34 with hndef
    set r : ℤ := (25 * hp) % 34 with hrdef
    have hqn : ((n:ℚ)) + (r:ℚ)/34 = (25 * (hp:ℚ))/34 := by
      have hcast : ((34 * n + r : ℤ) : ℚ) = ((25 * hp : ℤ) : ℚ) := by
        exact_mod_cast hdm
      push_cast at hcast
      linarith
    have hEq : (25 * (hp:ℚ))/34 - y = (hp:ℚ) * (25 * c64 - 34)/(34 * c64) := by
      rw [hydef]
      field_simp
      ring
    have hylo : (25 * (hp:ℚ))/34 - 1/2^33 < y := by
      have hbound : (hp:ℚ) * (25 * c64 - 34)/(34 * c64) < 1/2^33 := by
        rw [h25, div_lt_iff₀ (by positivity)]
        nlinarith
      linarith [hEq]
    have hyhi : y < (25 * (hp:ℚ))/34 := by
      have hbound : (0:ℚ) < (hp:ℚ) * (25 * c64 - 34)/(34 * c64) := by
        rw [h25]
        positivity
      linarith [hEq]
    have hn0 : (0:ℤ) ≤ n := Int.ediv_nonneg (by positivity) (by norm_num)
    have hn0q : (0:ℚ) ≤ (n:ℚ) := by exact_mod_cast hn0
    have hfl0 : (0:ℚ) ≤ flPos y := by linarith
    constructor
    · intro hrne
      have hrp : (1:ℤ) ≤ r := by omega
      have hr1 : (1:ℚ) ≤ (r:ℚ) := by exact_mod_cast hrp
      have hr33q : (r:ℚ) ≤ 33 := by exact_mod_cast (by omega : r ≤ 33)
      have hq1 : ((n:ℚ)) + 1/34 ≤ (25 * (hp:ℚ))/34 := by
        rw [← hqn]
        linarith
      have hq2 : (25 * (hp:ℚ))/34 ≤ ((n:ℚ)) + 33/34 := by
        rw [← hqn]
        linarith
      have hfloor : ⌊flPos y⌋ = n := by
        apply Int.floor_eq_iff.mpr
        exact ⟨by linarith, by linarith⟩
      rw [kw_from_hp_f, hflhp, ← hydef, fl_of_nonneg (by linarith),
        pytrunc_of_nonneg hfl0, hfloor]
    · intro hre
      have hq0 : ((n:ℚ)) = (25 * (hp:ℚ))/34 := by
        rw [← hqn, hre]
        norm_num
      have hlo : ((n:ℚ)) - 1 < flPos y := by linarith
      have hhi : flPos y < ((n:ℚ)) + 1 := by linarith
      rw [kw_from_hp_f, hflhp, ← hydef, fl_of_nonneg (by linarith),
        pytrunc_of_nonneg hfl0]
      constructor
      · apply Int.le_floor.mpr
        push_cast
        linarith
      · have hlt := Int.floor_lt.mpr (show flPos y < ((n + 1 : ℤ) : ℚ) from by
          push_cast; linarith)
        omega

theorem roundtrip_f_bounds {kw : ℤ} (h0 : 0 ≤ kw) (h1 : kw ≤ 100000) :
    kw - 1 ≤ kw_from_hp_f (hp_from_kw_f kw) ∧
    kw_from_hp_f (hp_from_kw_f kw) ≤ kw := by
  have hhp := hp_from_kw_f_eq h0 h1
  have hp0 : 0 ≤ (34 * kw) / 25 := Int.ediv_nonneg (by positivity) (by norm_num)
  have hpu : (34 * kw) / 25 ≤ 200000 := by omega
  have hc := kw_from_hp_f_cases hp0 hpu
  rw [hhp]
  rcases eq_or_ne ((25 * ((34 * kw) / 25)) % 34) 0 with hre | hrne
  · have hb := hc.2 hre
    omega
  · have hb := hc.1 hrne
    omega

theorem fl_four_mul {n : ℤ} (h1 : 4503599627370496 ≤ n)
    (h2 : n < 9007199254740992) :
    fl (((4 * n : ℤ) : ℚ)) = ((4 * n : ℤ) : ℚ) := by
  have hn0 : (0:ℤ) ≤ 4 * n := by omega
  have h1q : (4503599627370496:ℚ) ≤ (n:ℚ) := by exact_mod_cast h1
  have h2q : (n:ℚ) < 9007199254740992 := by exact_mod_cast h2
  rw [fl_of_nonneg (by exact_mod_cast hn0)]
  have hE : e2 (((4 * n : ℤ) : ℚ)) = 54 :=
    @e2_eq _ 54 (by push_cast; norm_num; linarith)
      (by push_cast; norm_num; linarith)
  rw [flPos, hE,
    show ((52:ℤ) - (54:ℤ)) = (-2 : ℤ) from by norm_num,
    show ((2:ℚ) ^ (-2 : ℤ)) = 1/4 from by norm_num,
    show (((4 * n : ℤ) : ℚ)) * (1/4) = ((n : ℤ) : ℚ) from by push_cast; ring,
    pyround_intCast]
  push_cast
  ring

theorem fl_A : fl ((18014398509481986 : ℚ)) = 18014398509481984 := by
  rw [fl_of_nonneg (by norm_num)]
  have hE : e2 ((18014398509481986 : ℚ)) = 54 :=
    @e2_eq _ 54 (by norm_num) (by norm_num)
  have hfl : ⌊(9007199254740993/2 : ℚ)⌋ = 4503599627370496 :=
    Int.floor_eq_iff.mpr ⟨by norm_num, by norm_num⟩
  have hpy : pyround ((9007199254740993/2 : ℚ)) = 4503599627370496 := by
    rw [pyround, hfl, if_neg (by push_cast; norm_num),
      if_neg (by push_cast; norm_num), if_pos (by decide)]
  rw [flPos, hE,
    show ((52:ℤ) - (54:ℤ)) = (-2 : ℤ) from by norm_num,
    show ((2:ℚ) ^ (-2 : ℤ)) = 1/4 from by norm_num,
    show ((18014398509481986:ℚ) * (1/4)) = 9007199254740993/2 from by
      norm_num,
    hpy]
  norm_num

theorem kw_f_136 : kw_from_hp_f 136 = 99 := by
  have hfl136 : fl (((136:ℤ) : ℚ)) = ((136:ℤ) : ℚ) :=
    @fl_intCast 136 (by norm_num) (by norm_num)
  have hq : (((136:ℤ) : ℚ)) / c64 = (136:ℚ) / c64 := by norm_num
  have hE : e2 ((136:ℚ) / c64) = 6 :=
    @e2_eq _ 6 (by norm_num [c64]) (by norm_num [c64])
  have hf0 : (0:ℚ) ≤ (136:ℚ) / c64 := by norm_num [c64]
  have hfloor1 : ⌊(136:ℚ) / c64 * 70368744177664⌋ = 7036874417766399 :=
    Int.floor_eq_iff.mpr ⟨by norm_num [c64], by norm_num [c64]⟩
  have hpy : pyround ((136:ℚ) / c64 * 70368744177664) = 7036874417766399 := by
    rw [pyround, hfloor1, if_pos (by norm_num [c64])]
  have hflq : flPos ((136:ℚ) / c64) =
      (7036874417766399 : ℚ) / 70368744177664 := by
    rw [flPos, hE, show ((52:ℤ) - (6:ℤ)) = (46:ℤ) from by norm_num,
      show ((2:ℚ) ^ (46:ℤ)) = 70368744177664 from by norm_num, hpy]
    norm_num
  rw [kw_from_hp_f, hfl136, hq, fl_of_nonneg hf0, hflq,
    pytrunc_of_nonneg (by norm_num)]
  exact Int.floor_eq_iff.mpr ⟨by norm_num, by norm_num⟩

theorem kw_f_170 : kw_from_hp_f 170 = 124 := by
  have hfl170 : fl (((170:ℤ) : ℚ)) = ((170:ℤ) : ℚ) :=
    @fl_intCast 170 (by norm_num) (by norm_num)
  have hq : (((170:ℤ) : ℚ)) / c64 = (170:ℚ) / c64 := by norm_num
  have hE : e2 ((170:ℚ) / c64) = 6 :=
    @e2_eq _ 6 (by norm_num [c64]) (by norm_num [c64])
  have hf0 : (0:ℚ) ≤ (170:ℚ) / c64 := by norm_num [c64]
  have hfloor1 : ⌊(170:ℚ) / c64 * 70368744177664⌋ = 8796093022207999 :=
    Int.floor_eq_iff.mpr ⟨by norm_num [c64], by norm_num [c64]⟩
  have hpy : pyround ((170:ℚ) / c64 * 70368744177664) = 8796093022207999 := by
    rw [pyround, hfloor1, if_pos (by norm_num [c64])]
  have hflq : flPos ((170:ℚ) / c64) =
      (8796093022207999 : ℚ) / 70368744177664 := by
    rw [flPos, hE, show ((52:ℤ) - (6:ℤ)) = (46:ℤ) from by norm_num,
      show ((2:ℚ) ^ (46:ℤ)) = 70368744177664 from by norm_num, hpy]
    norm_num
  rw [kw_from_hp_f, hfl170, hq, fl_of_nonneg hf0, hflq,
    pytrunc_of_nonneg (by norm_num)]
  exact Int.floor_eq_iff.mpr ⟨by norm_num, by norm_num⟩

/-- C3 counterexample: both conversion directions truncate binary64
results rather than rounding exact ones. At kW = 110 the code derives
HP = `int(110 * 1.36)` = 149 while `round(110 * 1.36)` = 150; at HP = 136
the code derives kW = `int(136 / 1.36)` = 99 — the binary64 quotient lies
just below 100 — while `round(136 / 1.36)` = 100. -/
theorem claim_C3_counterexample :
    hp_from_kw_f 110 = 149 ∧ pyround ((110 : ℚ) * 1.36) = 150 ∧
    kw_from_hp_f 136 = 99 ∧ pyround ((136 : ℚ) / 1.36) = 100 ∧
    (149 : ℤ) ≠ 150 ∧ (99 : ℤ) ≠ 100 := by
  refine ⟨?_, ?_, kw_f_136, ?_, by decide, by decide⟩
  · exact (@hp_from_kw_f_eq 110 (by norm_num) (by norm_num)).trans (by decide)
  · rw [pyround]
    norm_num
  · rw [show ((136:ℚ) / 1.36) = ((100:ℤ) : ℚ) from by norm_num,
      pyround_intCast]

/-- C3 (amended): the derived horsepower equals `int(kW * 1.36)` computed
in binary64 — truncation of the correctly rounded product, which for
0 ≤ kW ≤ 100000 equals `(34 * kW) div 25` — not `round(kW * 1.36)`; and
the derived kW equals `int(HP / 1.36)` in binary64, which for
0 ≤ HP ≤ 200000 equals `(25 * HP) div 34` or one less (the binary64
quotient can fall just below an exact integer quotient: at HP = 136 the
result is 99, at HP = 170 it is 124). -/
theorem claim_C3_conversions_truncate :
    (∀ kw : ℤ, 0 ≤ kw → kw ≤ 100000 → hp_from_kw_f kw = (34 * kw) / 25) ∧
    (∀ hp : ℤ, 0 ≤ hp → hp ≤ 200000 →
      kw_from_hp_f hp = (25 * hp) / 34 ∨
      kw_from_hp_f hp = (25 * hp) / 34 - 1) ∧
    kw_from_hp_f 136 = 99 ∧ kw_from_hp_f 170 = 124 := by
  refine ⟨fun kw h0 h1 => hp_from_kw_f_eq h0 h1, fun hp h0 h1 => ?_,
    kw_f_136, kw_f_170⟩
  have hc := kw_from_hp_f_cases h0 h1
  rcases eq_or_ne ((25 * hp) % 34) 0 with hre | hrne
  · have hb := hc.2 hre
    omega
  · exact Or.inl (hc.1 hrne)

/-- Witness for the amended C3 at kW = 110 and HP = 136: the program
derives HP = 149 = (34 * 110) div 25, and a kW of either 100 or 99 from
HP = 136 (the binary64 computation lands on 99). -/
theorem claim_C3_conversions_truncate_witness :
    hp_from_kw_f 110 = 149 ∧
    (kw_from_hp_f 136 = 100 ∨ kw_from_hp_f 136 = 99) := by
  refine ⟨(claim_C3_conversions_truncate.1 110 (by norm_num)
    (by norm_num)).trans (by decide), ?_⟩
  rcases claim_C3_conversions_truncate.2.1 136 (by norm_num) (by norm_num)
    with h | h
  · exact Or.inl (h.trans (by decide))
  · exact Or.inr (h.trans (by decide))

/-- C8 counterexample: for very large kW the round trip drifts by more
than one unit. At kW = 2^54 + 2 = 18014398509481986 the int-to-double
conversion rounds (ties-to-even) to 2^54, the product with the double
1.36 is exactly 24499581972895500, and the quotient back is exactly 2^54,
so the round trip returns 18014398509481984 = kW - 2. -/
theorem claim_C8_counterexample :
    hp_from_kw_f 18014398509481986 = 24499581972895500 ∧
    kw_from_hp_f 24499581972895500 = 18014398509481984 ∧
    ¬(|(18014398509481986 : ℤ) -
        kw_from_hp_f (hp_from_kw_f 18014398509481986)| ≤ 1) := by
  have hA : fl (((18014398509481986 : ℤ) : ℚ)) = 18014398509481984 := by
    rw [show (((18014398509481986 : ℤ) : ℚ)) = (18014398509481986 : ℚ) from
      by norm_num]
    exact fl_A
  have hB : fl ((24499581972895500 : ℚ)) = 24499581972895500 := by
    have h4 := @fl_four_mul 6124895493223875 (by norm_num) (by norm_num)
    rw [show ((4 * 6124895493223875 : ℤ) : ℚ) = (24499581972895500 : ℚ) from
      by norm_num] at h4
    exact h4
  have hD : fl ((18014398509481984 : ℚ)) = 18014398509481984 := by
    have h4 := @fl_four_mul 4503599627370496 (by norm_num) (by norm_num)
    rw [show ((4 * 4503599627370496 : ℤ) : ℚ) = (18014398509481984 : ℚ) from
      by norm_num] at h4
    exact h4
  have hprod : (18014398509481984 : ℚ) * c64 = 24499581972895500 := by
    norm_num [c64]
  have hquot : (24499581972895500 : ℚ) / c64 = 18014398509481984 := by
    rw [div_eq_iff (by norm_num [c64] : c64 ≠ 0)]
    norm_num [c64]
  have hHP : hp_from_kw_f 18014398509481986 = 24499581972895500 := by
    rw [hp_from_kw_f, hA, hprod, hB, pytrunc_of_nonneg (by norm_num),
      show (24499581972895500 : ℚ) = ((24499581972895500 : ℤ) : ℚ) from by
        norm_num,
      Int.floor_intCast]
  have hKW : kw_from_hp_f 24499581972895500 = 18014398509481984 := by
    rw [kw_from_hp_f,
      show (((24499581972895500 : ℤ) : ℚ)) = (24499581972895500 : ℚ) from by
        norm_num,
      hB, hquot, hD, pytrunc_of_nonneg (by norm_num),
      show (18014398509481984 : ℚ) = ((18014398509481984 : ℤ) : ℚ) from by
        norm_num,
      Int.floor_intCast]
  refine ⟨hHP, hKW, ?_⟩
  rw [hHP, hKW]
  decide

/-- C8 (amended): round-tripping kW through the binary64 conversions
(kW to HP by `int(kw * 1.36)`, back by `int(hp / 1.36)`) changes the value
by at most one unit for every integer kW with |kW| ≤ 100000 — in
particular for every realistic power figure; beyond binary64 integer
precision the drift can exceed one unit. -/
theorem claim_C8_roundtrip_drift_le_one (kw : ℤ) (hl : -100000 ≤ kw)
    (hu : kw ≤ 100000) :
    |kw - kw_from_hp_f (hp_from_kw_f kw)| ≤ 1 := by
  rcases le_or_lt 0 kw with h | h
  · have hb := roundtrip_f_bounds h hu
    rw [abs_le]
    omega
  · have hb := roundtrip_f_bounds (show (0:ℤ) ≤ -kw by omega)
      (show -kw ≤ 100000 by omega)
    rw [hp_from_kw_f_neg, kw_from_hp_f_neg] at hb
    rw [abs_le]
    omega

/-- Witness for the amended C8 at kW = 100: the round trip lands within
one unit (it returns 99 after the binary64 quotient dips below 100). -/
theorem claim_C8_roundtrip_drift_le_one_witness :
    |(100 : ℤ) - kw_from_hp_f (hp_from_kw_f 100)| ≤ 1 :=
  claim_C8_roundtrip_drift_le_one 100 (by norm_num) (by norm_num)

/-- Combined price as computed by both programs:
`np.expm1(log_base + log_brand) * cond`, with `np.expm1 x = e ^ x - 1`. -/
noncomputable def expm1 (x : ℝ) : ℝ := Real.exp x - 1

/-- Prediction combiner of `predict.py` line 130 and `app.py` line 119. -/
noncomputable def predict_price (log_base log_brand cond : ℝ) : ℝ :=
  expm1 (log_base + log_brand) * cond

/-- C1: the combiner returns exactly `expm1(log_base + log_brand) * cond`
with `expm1 x = e ^ x - 1`; at log_base = 2.0, log_brand = 0.5,
condition = 1.0 the price lies strictly between 11.18 and 11.19 (it is
`expm1 2.5 = 11.182...`), and in particular is strictly below what plain
`exp` would give. -/
theorem claim_C1_combiner_is_expm1 :
    (∀ lb lbr c : ℝ, predict_price lb lbr c = (Real.exp (lb + lbr) - 1) * c) ∧
    11.18 < predict_price 2 0.5 1 ∧ predict_price 2 0.5 1 < 11.19 ∧
    predict_price 2 0.5 1 < Real.exp (2 + 0.5) * 1 := by
  have hval : predict_price 2 0.5 1 = Real.exp 2.5 - 1 := by
    show expm1 (2 + 0.5) * 1 = Real.exp 2.5 - 1
    rw [expm1]; norm_num
  have hsq : Real.exp (2.5 : ℝ) ^ 2 = Real.exp 5 := by
    rw [← Real.exp_nat_mul]; norm_num
  have h5 : Real.exp (5 : ℝ) = Real.exp 1 ^ 5 := by
    rw [← Real.exp_nat_mul]; norm_num
  have e_gt := Real.exp_one_gt_d9
  have e_lt := Real.exp_one_lt_d9
  have hlow : (12.18 : ℝ) < Real.exp 2.5 := by
    apply lt_of_pow_lt_pow_left₀ 2 (Real.exp_nonneg _)
    rw [hsq, h5]
    calc (12.18 : ℝ) ^ 2 < 2.7182818283 ^ 5 := by norm_num
      _ < Real.exp 1 ^ 5 := pow_lt_pow_left₀ e_gt (by norm_num) (by norm_num)
  have hhigh : Real.exp (2.5 : ℝ) < 12.19 := by
    apply lt_of_pow_lt_pow_left₀ 2 (by norm_num : (0:ℝ) ≤ 12.19)
    rw [hsq, h5]
    calc Real.exp 1 ^ 5 < 2.7182818286 ^ 5 :=
          pow_lt_pow_left₀ e_lt (Real.exp_pos 1).le (by norm_num)
      _ < (12.19 : ℝ) ^ 2 := by norm_num
  refine ⟨fun lb lbr c => rfl, ?_, ?_, ?_⟩
  · rw [hval]; linarith
  · rw [hval]; linarith
  · rw [hval]; norm_num

/-- C5 counterexample: the combiner is not monotonically increasing in the
condition factor for every fixed pair of regressor outputs — when
`log_base + log_brand < 0` the factor `expm1` is negative and a larger
condition factor yields a strictly smaller price, here at
log_base = -1, log_brand = 0, conditions 1 < 2. -/
theorem claim_C5_counterexample :
    (1 : ℝ) < 2 ∧ predict_price (-1) 0 2 < predict_price (-1) 0 1 := by
  refine ⟨by norm_num, ?_⟩
  have hneg : expm1 ((-1 : ℝ) + 0) < 0 := by
    rw [expm1]
    have : Real.exp ((-1 : ℝ) + 0) < 1 := Real.exp_lt_one_iff.mpr (by norm_num)
    linarith
  show expm1 ((-1 : ℝ) + 0) * 2 < expm1 ((-1 : ℝ) + 0) * 1
  nlinarith

/-- C5 (amended): for every fixed pair of regressor outputs with positive
sum `log_base + log_brand > 0` the predicted price is strictly increasing
in the condition factor; when the sum is negative it is strictly
decreasing, so positivity of the combined log output is required. -/
theorem claim_C5_monotone_in_condition (lb lbr c1 c2 : ℝ)
    (h : 0 < lb + lbr) (hc : c1 < c2) :
    predict_price lb lbr c1 < predict_price lb lbr c2 := by
  have hpos : 0 < expm1 (lb + lbr) := by
    rw [expm1]
    have := Real.add_one_lt_exp (ne_of_gt h)
    linarith
  exact mul_lt_mul_of_pos_left hc hpos

/-- Witness for the amended C5: with log_base = 1, log_brand = 0 the price
at condition 0 is strictly below the price at condition 1. -/
theorem claim_C5_monotone_in_condition_witness :
    predict_price 1 0 0 < predict_price 1 0 1 :=
  claim_C5_monotone_in_condition 1 0 0 1 (by norm_num) (by norm_num)

/-- Technical feature vector of `predict.py` lines 113-123 (identically
`app.py` lines 106-113): order
[year, kw, hp, km, engine, auto, manual, cng, diesel, electric, hybrid,
lpg, petrol], with `1 if s == v else 0` one-hot flags. -/
def build_tech_vector (year kw hp km : ℤ) (engine : ℚ)
    (fuel trans : String) : List ℚ :=
  [(year : ℚ), (kw : ℚ), (hp : ℚ), (km : ℚ), engine,
   ind (trans == "automatic"), ind (trans == "manual"),
   ind (fuel == "cng"), ind (fuel == "diesel"), ind (fuel == "electric"),
   ind (fuel == "hybrid"), ind (fuel == "lpg"), ind (fuel == "petrol")]

/-- Power-fallback path of `get_prediction` (`predict.py` lines 92-94 and
113-123): with neither kW nor HP supplied, kW is estimated from engine and
fuel, HP is `int(kw * 1.36)`, and the technical vector is assembled. -/
def tech_vector_fallback (year : ℤ) (engine : ℚ) (fuel : String) (km : ℤ)
    (trans : String) : List ℚ :=
  build_tech_vector year (Predict.estimate_kw_from_engine engine fuel)
    (hp_from_kw (Predict.estimate_kw_from_engine engine fuel)) km engine
    fuel trans

theorem hp_from_kw_110 : hp_from_kw 110 = 149 := by
  rw [hp_from_kw, pytrunc]
  norm_num

theorem estimate_diesel_16 :
    Predict.estimate_kw_from_engine 1.6 "diesel" = 110 := by
  have hd : pyContains "diesel" (strLower "diesel") = true := by decide
  simp only [Predict.estimate_kw_from_engine, hd, if_true]
  rw [if_neg (by norm_num), if_pos (by norm_num)]

/-- C4 counterexample: on the Ford mondeo scenario (year 2020, 1.6 L
diesel, manual, 80000 km, no explicit power) the code derives kW = 110 but
HP = `int(110 * 1.36)` = 149, so the assembled vector differs from the
claimed `[2020,110,150,80000,1.6,0,1,0,1,0,0,0,0]` at the HP slot. -/
theorem claim_C4_counterexample :
    tech_vector_fallback 2020 1.6 "diesel" 80000 "manual" ≠
      [2020, 110, 150, 80000, 1.6, 0, 1, 0, 1, 0, 0, 0, 0] := by
  have hkw := estimate_diesel_16
  rw [tech_vector_fallback, hkw, build_tech_vector]
  have h149 : hp_from_kw ((110 : ℕ) : ℤ) = 149 := by
    rw [show ((110 : ℕ) : ℤ) = (110 : ℤ) by norm_num]
    exact hp_from_kw_110
  rw [h149]
  intro hcontra
  have := List.cons.inj hcontra
  have := List.cons.inj this.2
  have h3 := (List.cons.inj this.2).1
  norm_num at h3

/-- C4 (amended): on the scenario brand "Ford", model "mondeo", year 2020,
engine 1.6, fuel "diesel", transmission "manual", mileage 80000, no
explicit power, the estimator yields kW = 110, the derived HP is
`int(110 * 1.36)` = 149 (truncation, not the claimed round to 150), and
the technical feature vector equals
[2020,110,149,80000,1.6,0,1,0,1,0,0,0,0]. -/
theorem claim_C4_scenario_vector :
    Predict.estimate_kw_from_engine 1.6 "diesel" = 110 ∧
    hp_from_kw 110 = 149 ∧
    tech_vector_fallback 2020 1.6 "diesel" 80000 "manual" =
      [2020, 110, 149, 80000, 1.6, 0, 1, 0, 1, 0, 0, 0, 0] := by
  have hkw := estimate_diesel_16
  refine ⟨hkw, hp_from_kw_110, ?_⟩
  rw [tech_vector_fallback, hkw, build_tech_vector]
  have h149 : hp_from_kw ((110 : ℕ) : ℤ) = 149 := by
    rw [show ((110 : ℕ) : ℤ) = (110 : ℤ) by norm_num]
    exact hp_from_kw_110
  rw [h149]
  norm_num [ind]
  exact ⟨by decide, by decide, by decide, by decide, by decide, by decide⟩

theorem ind_zero_or_one (b : Bool) : ind b = 0 ∨ ind b = 1 := by
  cases b <;> simp [ind]

/-- C9: in every technical feature vector the two transmission flags
(slots 5 and 6) sum to at most one, the six fuel flags (slots 7-12) sum to
at most one, every flag is 0 or 1, the flag of each group depends only on
that group's input string, and both transmission flags are 0 whenever the
transmission string is neither "automatic" nor "manual" (unvalidated
pass-through). -/
theorem claim_C9_one_hot_flags (year kw hp km : ℤ) (engine : ℚ)
    (fuel trans : String) :
    ((build_tech_vector year kw hp km engine fuel trans).getD 5 0 +
        (build_tech_vector year kw hp km engine fuel trans).getD 6 0 ≤ 1) ∧
    ((build_tech_vector year kw hp km engine fuel trans).getD 7 0 +
        (build_tech_vector year kw hp km engine fuel trans).getD 8 0 +
        (build_tech_vector year kw hp km engine fuel trans).getD 9 0 +
        (build_tech_vector year kw hp km engine fuel trans).getD 10 0 +
        (build_tech_vector year kw hp km engine fuel trans).getD 11 0 +
        (build_tech_vector year kw hp km engine fuel trans).getD 12 0 ≤ 1) ∧
    (∀ i, 5 ≤ i → i ≤ 12 →
      (build_tech_vector year kw hp km engine fuel trans).getD i 0 = 0 ∨
      (build_tech_vector year kw hp km engine fuel trans).getD i 0 = 1) ∧
    (trans ≠ "automatic" → trans ≠ "manual" →
      (build_tech_vector year kw hp km engine fuel trans).getD 5 0 = 0 ∧
      (build_tech_vector year kw hp km engine fuel trans).getD 6 0 = 0) := by
  refine ⟨?_, ?_, ?_, ?_⟩
  · simp only [build_tech_vector, List.getD, List.getElem?_cons_succ,
      List.getElem?_cons_zero, Option.getD_some]
    rcases eq_or_ne trans "automatic" with h | h
    · subst h
      simp [ind]
    · simp only [ind, beq_iff_eq, h, if_false]
      rcases ind_zero_or_one (trans == "manual") with h2 | h2 <;>
        simp [ind, beq_iff_eq] at h2 ⊢ <;> simp [h2]
  · simp only [build_tech_vector, List.getD, List.getElem?_cons_succ,
      List.getElem?_cons_zero, Option.getD_some]
    rcases eq_or_ne fuel "cng" with h | h
    · subst h; simp [ind]
    rcases eq_or_ne fuel "diesel" with h2 | h2
    · subst h2; simp [ind]
    rcases eq_or_ne fuel "electric" with h3 | h3
    · subst h3; simp [ind]
    rcases eq_or_ne fuel "hybrid" with h4 | h4
    · subst h4; simp [ind]
    rcases eq_or_ne fuel "lpg" with h5 | h5
    · subst h5; simp [ind]
    rcases eq_or_ne fuel "petrol" with h6 | h6
    · subst h6; simp [ind]
    · simp [ind, beq_iff_eq, h, h2, h3, h4, h5, h6]
  · intro i h5 h12
    interval_cases i <;>
      simp only [build_tech_vector, List.getD, List.getElem?_cons_succ,
        List.getElem?_cons_zero, Option.getD_some] <;>
      exact ind_zero_or_one _
  · intro h1 h2
    simp [build_tech_vector, ind, beq_iff_eq, h1, h2]

/-- Witness for C9 at a concrete record: fuel "diesel" with the
unrecognized transmission string "tiptronic" leaves both transmission
flags 0, the flag sums within bounds, and every flag 0 or 1. -/
theorem claim_C9_one_hot_flags_witness :
    (build_tech_vector 2020 110 149 80000 1.6 "diesel" "tiptronic").getD 5 0
        = 0 ∧
    (build_tech_vector 2020 110 149 80000 1.6 "diesel" "tiptronic").getD 6 0
        = 0 ∧
    (build_tech_vector 2020 110 149 80000 1.6 "diesel" "tiptronic").getD 7 0 +
      (build_tech_vector 2020 110 149 80000 1.6 "diesel" "tiptronic").getD 8 0 +
      (build_tech_vector 2020 110 149 80000 1.6 "diesel" "tiptronic").getD 9 0 +
      (build_tech_vector 2020 110 149 80000 1.6 "diesel" "tiptronic").getD 10 0 +
      (build_tech_vector 2020 110 149 80000 1.6 "diesel" "tiptronic").getD 11 0 +
      (build_tech_vector 2020 110 149 80000 1.6 "diesel" "tiptronic").getD 12 0
        ≤ 1 ∧
    (build_tech_vector 2020 110 149 80000 1.6 "diesel" "tiptronic").getD 8 0
        = 0 ∨
    (build_tech_vector 2020 110 149 80000 1.6 "diesel" "tiptronic").getD 8 0
        = 1 := by
  have h := claim_C9_one_hot_flags 2020 110 149 80000 1.6 "diesel" "tiptronic"
  have hz := h.2.2.2 (by decide) (by decide)
  exact Or.inr ((h.2.2.1 8 (by decide) (by decide)).resolve_left (by decide))

/-- Association-list lookup modelling Python `dict.get`: the value of the
first matching key, `None` when the key is absent (`predict.py` lines
104-105). -/
def lookupTable (table : List (String × ℚ)) (key : String) : Option ℚ :=
  match table with
  | [] => none
  | (k, v) :: rest => if k == key then some v else lookupTable rest key

/-- Encoding resolution of `predict.py` lines 104-110: the table value when
the key resolves, otherwise the manually entered value. -/
def resolve_code (table : List (String × ℚ)) (key : String)
    (manual : ℚ) : ℚ :=
  match lookupTable table key with
  | some v => v
  | none => manual

/-- C6: a brand or model string absent from the EncodingTable resolves to
`none` (unresolved); an unresolved code is filled only by the caller's
manual value — whatever that value is, it is returned unchanged, so no
fixed sentinel is substituted — and a resolved key always yields the table
value, never the manual one, so the brand regressor is only ever invoked
with a table code or an explicitly supplied manual code. -/
theorem claim_C6_unresolved_encoding (table : List (String × ℚ))
    (key : String) :
    ((∀ p ∈ table, p.1 ≠ key) → lookupTable table key = none) ∧
    (lookupTable table key = none →
      ∀ manual, resolve_code table key manual = manual) ∧
    (∀ v, lookupTable table key = some v →
      ∀ manual, resolve_code table key manual = v) := by
  refine ⟨?_, ?_, ?_⟩
  · intro habs
    induction table with
    | nil => rfl
    | cons p rest ih =>
      obtain ⟨k, v⟩ := p
      rw [lookupTable]
      rw [if_neg]
      · exact ih fun q hq => habs q (List.mem_cons_of_mem _ hq)
      · simp only [beq_iff_eq]
        exact habs (k, v) (List.mem_cons_self _ _)
  · intro hnone manual
    rw [resolve_code, hnone]
  · intro v hv manual
    rw [resolve_code, hv]

/-- Witness for C6 on a concrete table: the key "bmw" is absent from
[("ford", 14)], so it resolves to `none`, and the resolver then returns
exactly the manual code 7. -/
theorem claim_C6_unresolved_encoding_witness :
    lookupTable [("ford", 14)] "bmw" = none ∧
    resolve_code [("ford", 14)] "bmw" 7 = 7 :=
  ⟨(claim_C6_unresolved_encoding [("ford", 14)] "bmw").1 (by decide),
    (claim_C6_unresolved_encoding [("ford", 14)] "bmw").2.1
      ((claim_C6_unresolved_encoding [("ford", 14)] "bmw").1 (by decide)) 7⟩

/-- Comparator for Python `sorted` on strings: the lexicographic order on
code points (the order of the `LinearOrder String` instance). -/
def strLeB (a b : String) : Bool := decide (a ≤ b)

/-- Model-name search of `predict.py` line 54 (identically `app.py` line
61): all keys of the models table containing the brand key as a
substring, sorted lexicographically (Python `sorted` on strings). -/
def available_models (models : List String) (brand_key : String) :
    List String :=
  (models.filter fun m => pyContains brand_key m).mergeSort strLeB

/-- Removal of every occurrence of a pattern, the semantics of Python
`str.replace(pattern, "")` (left-to-right, non-overlapping). -/
def removeAll (needle : List Char) : List Char → List Char
  | [] => []
  | h :: t =>
    if hcond : needle ≠ [] ∧ isPrefixList needle (h :: t) = true then
      removeAll needle ((h :: t).drop needle.length)
    else
      h :: removeAll needle t
termination_by l => l.length
decreasing_by
  · simp only [List.length_drop, List.length_cons]
    have h1 : 0 < needle.length := List.length_pos.mpr hcond.1
    omega
  · simp only [List.length_cons]
    omega

/-- Removal of leading and trailing whitespace, the semantics of Python
`str.strip()` on ASCII data. -/
def pyStrip (s : String) : String :=
  ⟨((s.data.dropWhile Char.isWhitespace).reverse.dropWhile
      Char.isWhitespace).reverse⟩

/-- Character-level title-casing scan: an alphabetic character is
upper-cased after a non-alphabetic one and lower-cased after an alphabetic
one, the semantics of Python `str.title()` on ASCII data. -/
def pyTitleChars : Bool → List Char → List Char
  | _, [] => []
  | prevAlpha, c :: cs =>
    (if c.isAlpha then (if prevAlpha then c.toLower else c.toUpper) else c)
      :: pyTitleChars c.isAlpha cs

/-- Display name of a candidate model (`predict.py` line 59, `app.py` line
62): `m.replace(brand_key, "").strip().title()`. -/
def display_name (brand_key m : String) : String :=
  ⟨pyTitleChars false (pyStrip ⟨removeAll brand_key.data m.data⟩).data⟩

theorem not_ws_head_dropWhile (l : List Char) :
    ∀ c ∈ (l.dropWhile Char.isWhitespace).head?, c.isWhitespace = false := by
  intro c hc
  have h := List.head?_dropWhile_not Char.isWhitespace l
  rw [Option.mem_def] at hc
  rw [hc] at h
  exact h

theorem toNat_ofNat_valid {n : Nat} (h : n < 55296) :
    (Char.ofNat n).toNat = n := by
  rw [Char.ofNat, dif_pos (Or.inl h)]
  rfl

theorem ws_false_of_toNat_range {c : Char} (h65 : 65 ≤ c.toNat)
    (h122 : c.toNat ≤ 122) : c.isWhitespace = false := by
  have hsp : (' ' : Char).toNat = 32 := rfl
  have htb : ('\t' : Char).toNat = 9 := rfl
  have hcr : ('\r' : Char).toNat = 13 := rfl
  have hnl : ('\n' : Char).toNat = 10 := rfl
  rw [Char.isWhitespace]
  simp only [Bool.or_eq_false_iff, decide_eq_false_iff_not]
  refine ⟨⟨⟨fun he => ?_, fun he => ?_⟩, fun he => ?_⟩, fun he => ?_⟩ <;>
    · have h := congrArg Char.toNat he
      omega

theorem isWhitespace_toLower {c : Char} (h : c.isWhitespace = false) :
    c.toLower.isWhitespace = false := by
  simp only [Char.toLower]
  split_ifs with h1
  · have ht : (Char.ofNat (Char.toNat c + 32)).toNat = Char.toNat c + 32 :=
      toNat_ofNat_valid (by omega)
    exact ws_false_of_toNat_range (by omega) (by omega)
  · exact h

theorem isWhitespace_toUpper {c : Char} (h : c.isWhitespace = false) :
    c.toUpper.isWhitespace = false := by
  simp only [Char.toUpper]
  split_ifs with h1
  · have ht : (Char.ofNat (Char.toNat c - 32)).toNat = Char.toNat c - 32 :=
      toNat_ofNat_valid (by omega)
    exact ws_false_of_toNat_range (by omega) (by omega)
  · exact h

theorem ws_titleChar {b : Bool} {c : Char} (h : c.isWhitespace = false) :
    (if c.isAlpha then (if b then c.toLower else c.toUpper)
      else c).isWhitespace = false := by
  split_ifs
  · exact isWhitespace_toLower h
  · exact isWhitespace_toUpper h
  · exact h

theorem pyTitleChars_head_ws (b : Bool) (l : List Char)
    (h : ∀ c ∈ l.head?, c.isWhitespace = false) :
    ∀ c ∈ (pyTitleChars b l).head?, c.isWhitespace = false := by
  cases l with
  | nil => intro c hc; simp [pyTitleChars] at hc
  | cons x xs =>
    intro c hc
    simp only [pyTitleChars, List.head?_cons, Option.mem_def,
      Option.some.injEq] at hc
    subst hc
    exact ws_titleChar (h x (by simp))

theorem pyTitleChars_getLast_ws (l : List Char) :
    ∀ (b : Bool), (∀ c ∈ l.getLast?, c.isWhitespace = false) →
      ∀ c ∈ (pyTitleChars b l).getLast?, c.isWhitespace = false := by
  induction l with
  | nil => intro b h c hc; simp [pyTitleChars] at hc
  | cons x xs ih =>
    intro b h c hc
    cases xs with
    | nil =>
      simp only [pyTitleChars, List.getLast?_singleton, Option.mem_def,
        Option.some.injEq] at hc
      subst hc
      exact ws_titleChar (h x (by simp))
    | cons y ys =>
      rw [show pyTitleChars b (x :: y :: ys) =
            (if x.isAlpha then (if b then x.toLower else x.toUpper) else x)
              :: pyTitleChars x.isAlpha (y :: ys) from rfl] at hc
      rw [show pyTitleChars x.isAlpha (y :: ys) =
            (if y.isAlpha then (if x.isAlpha then y.toLower else y.toUpper)
              else y) :: pyTitleChars y.isAlpha ys from rfl] at hc
      rw [List.getLast?_cons_cons] at hc
      rw [← show pyTitleChars x.isAlpha (y :: ys) =
            (if y.isAlpha then (if x.isAlpha then y.toLower else y.toUpper)
              else y) :: pyTitleChars y.isAlpha ys from rfl] at hc
      exact ih x.isAlpha (fun d hd => h d (by rwa [List.getLast?_cons_cons]))
        c hc

theorem pyStrip_head_ws (s : String) :
    ∀ c ∈ (pyStrip s).data.head?, c.isWhitespace = false := by
  intro c hc
  have hBpre : ((s.data.dropWhile Char.isWhitespace).reverse.dropWhile
      Char.isWhitespace).reverse <+: s.data.dropWhile Char.isWhitespace := by
    have hsuf := List.dropWhile_suffix (l := (s.data.dropWhile
      Char.isWhitespace).reverse) Char.isWhitespace
    have hp := List.reverse_prefix.mpr hsuf
    rwa [List.reverse_reverse] at hp
  cases hB : ((s.data.dropWhile Char.isWhitespace).reverse.dropWhile
      Char.isWhitespace).reverse with
  | nil =>
    rw [show (pyStrip s).data = ((s.data.dropWhile
      Char.isWhitespace).reverse.dropWhile Char.isWhitespace).reverse
      from rfl, hB] at hc
    simp at hc
  | cons x xs =>
    rw [show (pyStrip s).data = ((s.data.dropWhile
      Char.isWhitespace).reverse.dropWhile Char.isWhitespace).reverse
      from rfl, hB] at hc
    simp only [List.head?_cons, Option.mem_def, Option.some.injEq] at hc
    subst hc
    rw [hB] at hBpre
    obtain ⟨t, ht⟩ := hBpre
    have hhead : (s.data.dropWhile Char.isWhitespace).head? = some x := by
      rw [← ht]; rfl
    exact not_ws_head_dropWhile s.data x (by rw [hhead]; rfl)

theorem pyStrip_getLast_ws (s : String) :
    ∀ c ∈ (pyStrip s).data.getLast?, c.isWhitespace = false := by
  intro c hc
  have heq : (pyStrip s).data.getLast? =
      ((s.data.dropWhile Char.isWhitespace).reverse.dropWhile
        Char.isWhitespace).head? := List.getLast?_reverse _
  rw [heq] at hc
  exact not_ws_head_dropWhile _ c hc

/-- C7: the model-name search returns exactly the keys of the models table
containing the (lower-cased) brand key as a substring — it is a
permutation of that filter, its membership is characterized by contiguous
substring containment — in lexicographically sorted order; and every
displayed candidate (brand occurrences removed, stripped, title-cased)
carries no leading or trailing whitespace. -/
theorem claim_C7_model_search (models : List String) (bk : String) :
    (available_models models bk).Sorted (· ≤ ·) ∧
    List.Perm (available_models models bk)
      (models.filter (fun m => pyContains bk m)) ∧
    (∀ m, m ∈ available_models models bk ↔
      m ∈ models ∧ bk.data <:+: m.data) ∧
    (∀ m, ∀ c ∈ (display_name bk m).data.head?, c.isWhitespace = false) ∧
    (∀ m, ∀ c ∈ (display_name bk m).data.getLast?, c.isWhitespace = false)
    := by
  refine ⟨?_, ?_, ?_, ?_, ?_⟩
  · have hs : ((models.filter fun m => pyContains bk m).mergeSort
        strLeB).Pairwise (fun a b : String => strLeB a b = true) :=
      @List.sorted_mergeSort String strLeB
        (fun a b c hab hbc => by
          simp only [strLeB, decide_eq_true_eq] at hab hbc ⊢
          exact le_trans hab hbc)
        (fun a b => by
          simp only [strLeB, Bool.or_eq_true, decide_eq_true_eq]
          exact le_total a b)
        (models.filter fun m => pyContains bk m)
    exact hs.imp fun hab => of_decide_eq_true hab
  · exact List.mergeSort_perm _ _
  · intro m
    rw [show available_models models bk = (models.filter fun m =>
      pyContains bk m).mergeSort strLeB from rfl]
    rw [List.mem_mergeSort, List.mem_filter]
    rw [show pyContains bk m = isSubstrList bk.data m.data from rfl]
    rw [isSubstrList_iff_isInfix]
  · intro m
    exact pyTitleChars_head_ws false _ (pyStrip_head_ws _)
  · intro m
    exact pyTitleChars_getLast_ws _ false (pyStrip_getLast_ws _)

/-- Witness for C7 at a concrete table: among the keys "ford mondeo",
"bmw x5" and "ford focus" the search for brand "ford" contains
"ford focus" (substring membership), and the displayed head character of
"ford mondeo" under brand "ford" is non-whitespace. -/
theorem claim_C7_model_search_witness :
    "ford focus" ∈ available_models ["ford mondeo", "bmw x5", "ford focus"]
      "ford" ∧
    (∀ c ∈ (display_name "ford" "ford mondeo").data.head?,
      c.isWhitespace = false) := by
  constructor
  · exact (claim_C7_model_search ["ford mondeo", "bmw x5", "ford focus"]
      "ford").2.2.1 "ford focus" |>.mpr
      ⟨by decide, ⟨[], " focus".data, by decide⟩⟩
  · exact (claim_C7_model_search ["ford mondeo", "bmw x5", "ford focus"]
      "ford").2.2.2.1 "ford mondeo"

/-- C10: the fallback power estimators of the console program
(`predict.py`) and of the web app (`app.py`) are extensionally equal: on
every engine displacement and every fuel string they return the same kW. -/
theorem claim_C10_estimators_extensionally_equal (e : ℚ) (f : String) :
    Predict.estimate_kw_from_engine e f = App.estimate_kw_from_engine e f :=
  rfl
